import Mathlib

/-!
Verification of the FASTA reading/writing module (src/io/fasta.rs).

The Rust source is shallowly embedded: byte streams are `List Char`
(the module only deals in ASCII data); the buffered-line state of the
streaming `Reader` is an explicit structure; the `BTreeMap` backing the
`Index` is an association list kept sorted by the byte-lexicographic
order that `Vec<u8>`'s `Ord` instance uses; the seekable data stream of
the `IndexedReader` is a list plus an explicit cursor, with `Read::read`
returning `min(requested, available)` bytes (the semantics of
`io::Cursor`, which the module's own tests use) and leaving the rest of
the destination buffer untouched.  `u64` subtraction that would
underflow, division by zero, and out-of-range slicing are modelled as a
distinct `panic` outcome.
-/

deriving instance DecidableEq for Except

namespace Fasta

/-- Whitespace test matching Rust's white-space classification on the
ASCII range (used by both str::trim_right and str::split_whitespace). -/
def isWS (c : Char) : Bool :=
  c = ' ' || c = '\t' || c = '\n' || c = '\r' || c = '\x0b' || c = '\x0c'

/-- Model of `BufRead::read_line` on a remaining-input list: returns the
line up to and including the first newline (or the whole input when no
newline is left), together with the rest of the input. -/
def readLine : List Char → List Char × List Char
  | [] => ([], [])
  | c :: rest =>
    if c = '\n' then ([c], rest)
    else
      let p := readLine rest
      (c :: p.1, p.2)

theorem readLine_append (s : List Char) : (readLine s).1 ++ (readLine s).2 = s := by
  induction s with
  | nil => rfl
  | cons c rest ih =>
    by_cases h : c = '\n' <;> simp [readLine, h, ih]

theorem readLine_snd_length {s : List Char} (h : (readLine s).1 ≠ []) :
    (readLine s).2.length < s.length := by
  have hs := readLine_append s
  have : (readLine s).1.length + (readLine s).2.length = s.length := by
    rw [← List.length_append, hs]
  have hpos : 0 < (readLine s).1.length := List.length_pos.mpr h
  omega

theorem dropWhile_length_le (p : Char → Bool) (l : List Char) :
    (l.dropWhile p).length ≤ l.length := by
  induction l with
  | nil => simp
  | cons c rest ih =>
    by_cases h : p c
    · simp only [List.dropWhile, h, List.length_cons]
      omega
    · simp [List.dropWhile, h]

/-- Model of `str::trim_right` (trailing whitespace removed). -/
def trimRight (s : List Char) : List Char :=
  (s.reverse.dropWhile isWS).reverse

/-- One FASTA record: raw header line (with leading marker and trailing
terminator, as accumulated by the reader) and the concatenated sequence
lines with terminators stripped.  Mirrors `struct Record`. -/
structure Record where
  header : List Char
  seq : List Char
deriving DecidableEq, Repr

/-- Mirrors `Record::is_empty`. -/
def Record.is_empty (r : Record) : Bool :=
  r.header.isEmpty && r.seq.isEmpty

/-- The Rust accessors slice `self.header[1..]`, which panics when the
header is shorter than one byte; `none` models that panic. -/
def sliceFrom1 (s : List Char) : Option (List Char) :=
  if 1 ≤ s.length then some (s.drop 1) else none

/-- Fuel-indexed worker for `splitWS`; the fuel only serves to make the
recursion structural; `splitWSF_fuel` below shows it is irrelevant. -/
def splitWSF : Nat → List Char → List (List Char)
  | 0, _ => []
  | _ + 1, [] => []
  | fuel + 1, c :: rest =>
    if isWS c then splitWSF fuel rest
    else (c :: rest.takeWhile (fun d => !isWS d)) ::
      splitWSF fuel (rest.dropWhile (fun d => !isWS d))

/-- Model of `str::split_whitespace`: maximal runs of non-whitespace. -/
def splitWS (s : List Char) : List (List Char) :=
  splitWSF (s.length + 1) s

theorem splitWSF_fuel : ∀ (f1 f2 : Nat) (s : List Char),
    s.length < f1 → s.length < f2 → splitWSF f1 s = splitWSF f2 s := by
  intro f1
  induction f1 with
  | zero => intro f2 s h1 _; omega
  | succ f ih =>
    intro f2 s h1 h2
    cases f2 with
    | zero => omega
    | succ g =>
      cases s with
      | nil => rfl
      | cons c rest =>
        simp only [List.length_cons] at h1 h2
        simp only [splitWSF]
        by_cases hc : isWS c
        · rw [if_pos hc, if_pos hc]
          exact ih g rest (by omega) (by omega)
        · have hd := dropWhile_length_le (fun d => !isWS d) rest
          rw [if_neg hc, if_neg hc]
          exact congrArg _ (ih g (rest.dropWhile (fun d => !isWS d)) (by omega) (by omega))

/-- The defining equation of `splitWS` on a non-empty input, fuel
eliminated. -/
theorem splitWS_cons (c : Char) (rest : List Char) :
    splitWS (c :: rest) =
      if isWS c then splitWS rest
      else (c :: rest.takeWhile (fun d => !isWS d)) ::
        splitWS (rest.dropWhile (fun d => !isWS d)) := by
  show splitWSF (rest.length + 1 + 1) (c :: rest) = _
  simp only [splitWSF]
  by_cases hc : isWS c
  · rw [if_pos hc, if_pos hc]
    exact splitWSF_fuel (rest.length + 1) (rest.length + 1) rest (by omega) (by omega)
  · have hd := dropWhile_length_le (fun d => !isWS d) rest
    rw [if_neg hc, if_neg hc]
    exact congrArg _ (splitWSF_fuel (rest.length + 1)
      ((rest.dropWhile (fun d => !isWS d)).length + 1)
      (rest.dropWhile (fun d => !isWS d)) (by omega) (by omega))

/-- Mirrors `Record::id`: the outer `Option` is the slicing panic, the
inner one is the `next()` of the whitespace split. -/
def Record.id (r : Record) : Option (Option (List Char)) :=
  (sliceFrom1 r.header).map (fun t => (splitWS t).head?)

/-- Mirrors `Record::desc`: all whitespace tokens of the header after the
first.  The outer `Option` is the slicing panic. -/
def Record.desc (r : Record) : Option (List (List Char)) :=
  (sliceFrom1 r.header).map (fun t => (splitWS t).drop 1)

/-- State of the streaming reader: the not-yet-consumed input and the
buffered line carried between calls (`Reader.line`). -/
structure Reader where
  stream : List Char
  line : List Char
deriving DecidableEq, Repr

inductive ParseError where
  | expectedHeader
deriving DecidableEq, Repr

/-- The sequence-accumulation loop of `Reader::read` (lines 66-73 of the
source): clear the line, read one line, push its right-trimmed content
onto the sequence, and stop after pushing when the line is empty (end of
stream) or starts with the header marker (left buffered).  Returns the
accumulated sequence text, the final buffered line and the rest of the
input. -/
def seqLoopF : Nat → List Char → List Char × List Char × List Char
  | 0, stream => ([], [], stream)
  | fuel + 1, stream =>
    let l := (readLine stream).1
    let rest := (readLine stream).2
    let piece := trimRight l
    if l = [] ∨ l.head? = some '>' then (piece, l, rest)
    else
      let q := seqLoopF fuel rest
      (piece ++ q.1, q.2.1, q.2.2)

def seqLoop (stream : List Char) : List Char × List Char × List Char :=
  seqLoopF (stream.length + 1) stream

theorem seqLoopF_fuel : ∀ (f1 f2 : Nat) (stream : List Char),
    stream.length < f1 → stream.length < f2 → seqLoopF f1 stream = seqLoopF f2 stream := by
  intro f1
  induction f1 with
  | zero => intro f2 s h1 _; omega
  | succ f ih =>
    intro f2 stream h1 h2
    cases f2 with
    | zero => omega
    | succ g =>
      simp only [seqLoopF]
      by_cases hb : (readLine stream).1 = [] ∨ (readLine stream).1.head? = some '>'
      · simp only [hb, if_true]
      · have hlen := readLine_snd_length (fun hh => hb (Or.inl hh))
        simp only [hb, if_false]
        rw [ih g (readLine stream).2 (by omega) (by omega)]

/-- The defining equation of `seqLoop`, fuel eliminated. -/
theorem seqLoop_eq (stream : List Char) :
    seqLoop stream =
      (if (readLine stream).1 = [] ∨ (readLine stream).1.head? = some '>'
        then (trimRight (readLine stream).1, (readLine stream).1, (readLine stream).2)
        else
          (trimRight (readLine stream).1 ++ (seqLoop (readLine stream).2).1,
            (seqLoop (readLine stream).2).2.1, (seqLoop (readLine stream).2).2.2)) := by
  show seqLoopF (stream.length + 1) stream = _
  simp only [seqLoopF]
  by_cases hb : (readLine stream).1 = [] ∨ (readLine stream).1.head? = some '>'
  · rw [if_pos hb, if_pos hb]
  · have hlen := readLine_snd_length (fun hh => hb (Or.inl hh))
    rw [if_neg hb, if_neg hb,
      seqLoopF_fuel stream.length ((readLine stream).2.length + 1)
        (readLine stream).2 (by omega) (by omega)]
    rfl

/-- Mirrors `Reader::read`: fill a fresh record with the next FASTA
record, or leave it empty at end of stream.  The returned state is the
reader after the call. -/
def Reader.read (st : Reader) : Except ParseError Record × Reader :=
  let line0 := if st.line = [] then (readLine st.stream).1 else st.line
  let stream0 := if st.line = [] then (readLine st.stream).2 else st.stream
  if line0 = [] then (.ok ⟨[], []⟩, ⟨stream0, line0⟩)
  else if line0.head? ≠ some '>' then (.error .expectedHeader, ⟨stream0, line0⟩)
  else
    let q := seqLoop stream0
    (.ok ⟨line0, q.1⟩, ⟨q.2.2, q.2.1⟩)

/-- Mirrors `Records::next` (the iterator step): end of iteration when a
read succeeds with an empty record, otherwise yield the record or the
error. -/
def Records.next (st : Reader) : Option (Except ParseError Record) × Reader :=
  match Reader.read st with
  | (.ok r, st') => if r.is_empty then (none, st') else (some (.ok r), st')
  | (.error e, st') => (some (.error e), st')

/-- One row of the `.fai` index: mirrors `struct IndexRecord`
(all fields `u64` in the source; overflow is not reachable in any
statement below, so they are modelled as `Nat`). -/
structure IndexRecord where
  len : Nat
  offset : Nat
  line_bases : Nat
  line_bytes : Nat
deriving DecidableEq, Repr

def isDigit (c : Char) : Bool := '0' ≤ c && c ≤ '9'

def digitsToNat (s : List Char) : Nat :=
  s.foldl (fun a c => a * 10 + (c.toNat - '0'.toNat)) 0

/-- Model of `u64::from_str` as invoked by the csv decoder: an optional
leading plus sign followed by at least one decimal digit. -/
def parseU64 (s : List Char) : Option Nat :=
  let t := match s with
    | '+' :: r => r
    | _ => s
  if t ≠ [] && t.all isDigit then some (digitsToNat t) else none

/-- Split one csv line into its tab-separated fields. -/
def splitFields (row : List Char) : List (List Char) :=
  row.splitOn '\t'

/-- The rows the csv reader iterates over: the side-file split at
newlines, blank records skipped.  (csv quoting is not modelled; no index
row in this development contains a quote character.) -/
def faiRows (src : List Char) : List (List Char) :=
  (src.splitOn '\n').filter (fun l => l ≠ [])

/-- Decoding one row to `(String, IndexRecord)` as
`csv::Reader::decode` does: exactly five tab-separated columns whose
last four parse as unsigned integers; anything else is an error. -/
def decodeRow (row : List Char) : Option (List Char × IndexRecord) :=
  match splitFields row with
  | [n, f1, f2, f3, f4] =>
    match parseU64 f1, parseU64 f2, parseU64 f3, parseU64 f4 with
    | some a, some b, some c, some d => some (n, ⟨a, b, c, d⟩)
    | _, _, _, _ => none
  | _ => none

/-- Byte-lexicographic strict order on keys: the `Ord` instance of
`Vec<u8>` that `BTreeMap` sorts by. -/
def lexLt : List Char → List Char → Bool
  | [], [] => false
  | [], _ :: _ => true
  | _ :: _, [] => false
  | a :: s, b :: t =>
    if a.toNat < b.toNat then true
    else if b.toNat < a.toNat then false
    else lexLt s t

/-- The `BTreeMap<Vec<u8>, IndexRecord>` backing the index, as a sorted
association list. -/
abbrev BMap := List (List Char × IndexRecord)

/-- Mirrors `BTreeMap::insert`: replaces the value when the key is present,
otherwise inserts at the sorted position. -/
def bInsert (k : List Char) (v : IndexRecord) : BMap → BMap
  | [] => [(k, v)]
  | (k', v') :: t =>
    if k = k' then (k, v) :: t
    else if lexLt k k' then (k, v) :: (k', v') :: t
    else (k', v') :: bInsert k v t

/-- Mirrors `BTreeMap::get`. -/
def bGet (k : List Char) : BMap → Option IndexRecord
  | [] => none
  | (k', v') :: t => if k = k' then some v' else bGet k t

/-- Mirrors `struct Index`. -/
structure Index where
  inner : BMap
deriving DecidableEq, Repr

/-- The row loop of `Index::new`: decode each row, failing the whole
build on the first bad row, and insert the decoded entries in file
order. -/
def buildRows : List (List Char) → BMap → Option BMap
  | [], acc => some acc
  | r :: rs, acc =>
    match decodeRow r with
    | none => none
    | some p => buildRows rs (bInsert p.1 p.2 acc)

/-- Mirrors `Index::new`: parse the tab-separated side-file; `none` is
the propagated csv error. -/
def Index.new (src : List Char) : Option Index :=
  (buildRows (faiRows src) []).map Index.mk

/-- Mirrors `struct Sequence`. -/
structure Sequence where
  name : List Char
  len : Nat
deriving DecidableEq, Repr

/-- Mirrors `Index::sequences`. -/
def Index.sequences (idx : Index) : List Sequence :=
  idx.inner.map (fun p => ⟨p.1, p.2.len⟩)

/-- The entry of the LAST side-file row carrying a given name (specification
device for describing which row wins when names repeat). -/
def lastMatch (k : List Char) : List (List Char) → Option IndexRecord
  | [] => none
  | r :: rs =>
    match lastMatch k rs with
    | some v => some v
    | none =>
      match decodeRow r with
      | some p => if p.1 = k then some p.2 else none
      | none => none

/-- Strict sortedness by key of the association list modelling the
`BTreeMap`. -/
def keysSorted (m : BMap) : Prop :=
  m.Pairwise (fun a b => lexLt a.1 b.1 = true)

/-- Outcome of `IndexedReader::read`: `ok` with the bytes pushed to
`seq`, the "Unknown sequence name" error, or a panic (`u64` underflow /
division by zero / out-of-range slice in the arithmetic). -/
inductive ReadResult where
  | ok (seq : List Char)
  | unknownSequence
  | panic
deriving DecidableEq, Repr

/-- Checked `u64` subtraction: panics (in a debug build) on underflow. -/
def checkedSub (a b : Nat) : Option Nat :=
  if b ≤ a then some (a - b) else none

/-- Model of one `Read::read(&mut buf[..limit])` call against the
seekable data stream at cursor `pos`: up to `limit` bytes are copied
into the front of `buf`, the rest of `buf` keeps its previous contents,
and the cursor advances by the number of bytes actually read. -/
def fsRead (data : List Char) (pos : Nat) (buf : List Char) (limit : Nat) :
    List Char × Nat :=
  let k := min limit (data.length - pos)
  ((data.drop pos).take k ++ buf.drop k, pos + k)

/-- The "read full lines" loop of `IndexedReader::read`: `n` iterations,
each reading into the whole `line_bases`-sized buffer and pushing the
entire buffer onto the output (the return value of `read` is ignored by
the source, so stale buffer bytes are pushed too).  State:
(accumulated output, buffer, cursor). -/
def fullLines (data : List Char) (lineBases : Nat) :
    Nat → List Char → List Char → Nat → List Char × List Char × Nat
  | 0, acc, buf, pos => (acc, buf, pos)
  | n + 1, acc, buf, pos =>
    let p := fsRead data pos buf lineBases
    fullLines data lineBases n (acc ++ p.1) p.1 p.2

/-- Mirrors `IndexedReader::read` (lines 162-194 of the source), the
random-access range read: look the name up, compute the seek offset and
the loop bounds exactly as the source does, seek, run the full-line
loop, then read and push the final `line_stop` bytes. -/
def IndexedReader.read (index : Index) (data : List Char) (name : List Char)
    (start stop : Nat) : ReadResult :=
  match bGet name index.inner with
  | none => .unknownSequence
  | some idx =>
    if idx.line_bases = 0 then .panic
    else
      let line := start / idx.line_bases * idx.line_bytes
      let lineOffset := start % idx.line_bases
      let offset := idx.offset + line + lineOffset
      match checkedSub (stop / idx.line_bases * idx.line_bytes) line with
      | none => .panic
      | some lines =>
        match checkedSub (stop % idx.line_bases) (if lines = 0 then lineOffset else 0) with
        | none => .panic
        | some lineStop =>
          if idx.line_bases < lineStop then .panic
          else
            let buf0 := List.replicate idx.line_bases '\x00'
            let q := fullLines data idx.line_bases lines [] buf0 offset
            let p := fsRead data q.2.2 q.2.1 lineStop
            .ok (q.1 ++ p.1.take lineStop)

/-- Mirrors `Writer::write`: the header marker, the id, each description
preceded by one space, a terminator, the raw (unwrapped) sequence bytes,
and a final terminator. -/
def writeFasta (id : List Char) (descs : List (List Char)) (seq : List Char) :
    List Char :=
  '>' :: (id ++ (descs.map (fun d => ' ' :: d)).flatten ++ '\n' :: (seq ++ ['\n']))

/-! Concrete inputs.  `testFasta`/`testFai` are the fixtures of the
source's own test module; `wrappedFasta`/`wrappedIndex` are a minimal
line-wrapped file (four bases stored as two physical lines of two bases
plus terminator) with its correct `.fai` entry
(length 4, offset 3, line_bases 2, line_bytes 3). -/

def testFasta : List Char := ">id desc\nACCGTAGGCTGA\n".toList

def testFai : List Char := "id\t12\t9\t60\t61\n".toList

def wrappedFasta : List Char := ">x\nAC\nGT\n".toList

def wrappedIndex : Index := ⟨[("x".toList, ⟨4, 3, 2, 3⟩)]⟩

/-- C1: the claim states that a successful `read_range` always returns
exactly `stop - start` base bytes with no terminators, even across
wrapped physical lines.  The code violates this: for the wrapped file
`>x\nAC\nGT\n` (sequence `ACGT`, two bases per line), reading the full
range `[0, 4)` succeeds but pushes 12 bytes — embedded `\n` terminators
and stale buffer contents included — because the full-line loop count
`stop / line_bases * line_bytes - line` is a byte quantity used as a
line count, and each full-line read never skips the terminator.  The
spec itself flags this as a defect of the reference implementation, so
the claim is correct about the intended behaviour and the code is
wrong. -/
theorem c1_wrapped_range_read_is_broken :
    IndexedReader.read wrappedIndex wrappedFasta "x".toList 0 4 =
      .ok "AC\nGT\nT\nT\nT\n".toList
    ∧ "AC\nGT\nT\nT\nT\n".toList ≠ "ACGT".toList
    ∧ '\n' ∈ "AC\nGT\nT\nT\nT\n".toList := by
  refine ⟨by decide, by decide, by decide⟩

/-- C2: the claim states that `read_range` fails with a range error
whenever `stop > length` or `start > stop`.  The code performs no bounds
check at all: on the source's own test fixture (sequence length 12),
reading `[0, 13)` returns success with 13 bytes — the terminator byte
after the sequence included — instead of any error. -/
theorem c2_stop_beyond_length_returns_ok :
    (Index.new testFai).map
        (fun ix => IndexedReader.read ix testFasta "id".toList 0 13) =
      some (.ok "ACCGTAGGCTGA\n".toList)
    ∧ (Index.new testFai).map (fun ix => bGet "id".toList ix.inner) =
      some (some ⟨12, 9, 60, 61⟩) := by
  refine ⟨by decide, by decide⟩

/-- C3: the claim states that parsing well-formed records yields each
block's own sequence, and that a header immediately followed by another
header yields an empty sequence.  The code appends each freshly read
line to the sequence BEFORE testing whether it is the next record's
header, so for `>a\nAC\n>b\nGG\n` the first record's sequence comes out
as `AC>b` instead of `AC` (the record count and the second record are
unaffected). -/
theorem c3_next_header_appended_to_sequence :
    Records.next ⟨">a\nAC\n>b\nGG\n".toList, []⟩ =
      (some (.ok ⟨">a\n".toList, "AC>b".toList⟩),
        ⟨"GG\n".toList, ">b\n".toList⟩)
    ∧ Records.next ⟨"GG\n".toList, ">b\n".toList⟩ =
      (some (.ok ⟨">b\n".toList, "GG".toList⟩), ⟨[], []⟩)
    ∧ (Records.next ⟨[], []⟩).1 = none
    ∧ "AC>b".toList ≠ "AC".toList := by
  refine ⟨by decide, by decide, by decide, by decide⟩

/-- C4: on the source's own test fixture (`>id desc\nACCGTAGGCTGA\n`
with index row `id 12 9 60 61`), `read_range("id", 1, 5)` succeeds and
returns exactly the four bytes `CCGT`. -/
theorem c4_concrete_range_read :
    (Index.new testFai).map
        (fun ix => IndexedReader.read ix testFasta "id".toList 1 5) =
      some (.ok "CCGT".toList) := by
  decide

/-- C5: for any name present in the index with `line_bases >= 1` and any
`start = stop <= length`, the range read succeeds and returns no bytes:
the full-line loop runs zero times and the final read is over an empty
slice. -/
theorem c5_empty_range_reads_nothing (index : Index) (data : List Char)
    (name : List Char) (start stop : Nat) (idx : IndexRecord)
    (hget : bGet name index.inner = some idx) (hlb : 1 ≤ idx.line_bases)
    (heq : start = stop) (hle : stop ≤ idx.len) :
    IndexedReader.read index data name start stop = .ok [] := by
  subst heq
  have hs : ∀ a : Nat, checkedSub a a = some 0 := fun a => by simp [checkedSub]
  simp only [IndexedReader.read, hget]
  rw [if_neg (by omega : ¬ idx.line_bases = 0)]
  simp only [reduceIte, hs, fullLines, List.take_zero, Nat.not_lt_zero,
    if_false, List.nil_append, List.append_nil]

/-- Instantiation of `c5_empty_range_reads_nothing` on the test fixture
with `start = stop = 5`. -/
theorem c5_empty_range_reads_nothing_witness :
    bGet "id".toList (Index.mk [("id".toList, ⟨12, 9, 60, 61⟩)]).inner =
      some ⟨12, 9, 60, 61⟩
    ∧ 1 ≤ (⟨12, 9, 60, 61⟩ : IndexRecord).line_bases
    ∧ (5 : Nat) = 5
    ∧ 5 ≤ (⟨12, 9, 60, 61⟩ : IndexRecord).len
    ∧ IndexedReader.read (Index.mk [("id".toList, ⟨12, 9, 60, 61⟩)])
        testFasta "id".toList 5 5 = .ok [] :=
  ⟨by decide, by decide, rfl, by decide,
    c5_empty_range_reads_nothing (Index.mk [("id".toList, ⟨12, 9, 60, 61⟩)])
      testFasta "id".toList 5 5 ⟨12, 9, 60, 61⟩ (by decide) (by decide) rfl
      (by decide)⟩

theorem readLine_fst_ne_nil {s : List Char} (h : s ≠ []) :
    (readLine s).1 ≠ [] := by
  match s with
  | c :: rest =>
    by_cases hc : c = '\n' <;> simp [readLine, hc]

/-- A `Records::next` step that yields no item can only come from the
fully exhausted reader state, which it also returns. -/
theorem records_next_none {st : Reader} (h : (Records.next st).1 = none) :
    (Records.next st).2 = ⟨[], []⟩ ∧ st.line = [] ∧ st.stream = [] := by
  obtain ⟨s, l⟩ := st
  by_cases hline : l = []
  · by_cases hstream : s = []
    · subst hline
      subst hstream
      exact ⟨rfl, rfl, rfl⟩
    · exfalso
      have h1 : (readLine s).1 ≠ [] := readLine_fst_ne_nil hstream
      simp only [Records.next, Reader.read, hline, if_true, if_neg h1] at h
      by_cases hhd : (readLine s).1.head? ≠ some '>'
      · rw [if_pos hhd] at h
        simp at h
      · rw [if_neg hhd] at h
        simp only [Record.is_empty, List.isEmpty_iff] at h
        rw [if_neg (by simp [h1])] at h
        simp at h
  · exfalso
    simp only [Records.next, Reader.read, hline, if_false, if_neg hline] at h
    by_cases hhd : l.head? ≠ some '>'
    · rw [if_pos hhd] at h
      simp at h
    · rw [if_neg hhd] at h
      simp only [Record.is_empty, List.isEmpty_iff] at h
      rw [if_neg (by simp [hline])] at h
      simp at h

/-- C6 (amended): iteration stops permanently once an empty record
(clean end of stream) has been observed: a step that produces no item
leaves the reader in the exhausted state, and every further step on that
state again produces no item and the same state.  (After an ERROR item
the iterator does not stop — see the counterexample theorem.) -/
theorem c6_iteration_stops_after_none (st : Reader)
    (h : (Records.next st).1 = none) :
    Records.next (Records.next st).2 = (none, (Records.next st).2) := by
  rw [(records_next_none h).1]
  rfl

/-- Instantiation of `c6_iteration_stops_after_none` on the exhausted
reader. -/
theorem c6_iteration_stops_after_none_witness :
    (Records.next ⟨[], []⟩).1 = none
    ∧ Records.next (Records.next ⟨[], []⟩).2 = (none, (Records.next ⟨[], []⟩).2) :=
  ⟨by decide, c6_iteration_stops_after_none ⟨[], []⟩ (by decide)⟩

/-- C6 (counterexample): the claim states that iteration produces no
further items once an error has been returned.  On the headerless input
`AC\n` the first step yields a format error, and — because the
offending line stays buffered — the second step yields an item again
(the same error), so iteration does not stop after an error. -/
theorem c6_error_items_repeat :
    (Records.next ⟨"AC\n".toList, []⟩).1 = some (.error .expectedHeader)
    ∧ (Records.next (Records.next ⟨"AC\n".toList, []⟩).2).1 =
      some (.error .expectedHeader) := by
  refine ⟨by decide, by decide⟩

theorem lexLt_irrefl (a : List Char) : lexLt a a = false := by
  induction a with
  | nil => rfl
  | cons c rest ih => simp [lexLt, ih]

theorem lexLt_total (a b : List Char) :
    a = b ∨ lexLt a b = true ∨ lexLt b a = true := by
  induction a generalizing b with
  | nil =>
    cases b with
    | nil => exact Or.inl rfl
    | cons y t => exact Or.inr (Or.inl rfl)
  | cons x s ih =>
    cases b with
    | nil => exact Or.inr (Or.inr rfl)
    | cons y t =>
      rcases Nat.lt_trichotomy x.toNat y.toNat with hlt | heq | hgt
      · refine Or.inr (Or.inl ?_)
        simp [lexLt, hlt]
      · have hx : x = y := Char.eq_of_val_eq (UInt32.ext heq)
        subst hx
        rcases ih t with h | h | h
        · exact Or.inl (by rw [h])
        · exact Or.inr (Or.inl (by simp [lexLt, h]))
        · exact Or.inr (Or.inr (by simp [lexLt, h]))
      · refine Or.inr (Or.inr ?_)
        simp [lexLt, hgt, Nat.lt_asymm hgt]

theorem lexLt_trans (a b c : List Char) (hab : lexLt a b = true)
    (hbc : lexLt b c = true) : lexLt a c = true := by
  induction a generalizing b c with
  | nil =>
    cases c with
    | nil =>
      cases b with
      | nil => exact hab
      | cons y t => simp [lexLt] at hbc
    | cons z u => rfl
  | cons x s ih =>
    cases b with
    | nil => simp [lexLt] at hab
    | cons y t =>
      cases c with
      | nil => simp [lexLt] at hbc
      | cons z u =>
        simp only [lexLt] at hab hbc ⊢
        by_cases hxy : x.toNat < y.toNat
        · by_cases hyz : y.toNat < z.toNat
          · rw [if_pos (by omega)]
          · rw [if_neg hyz] at hbc
            by_cases hzy : z.toNat < y.toNat
            · rw [if_pos hzy] at hbc
              cases hbc
            · rw [if_pos (by omega)]
        · rw [if_neg hxy] at hab
          by_cases hyx : y.toNat < x.toNat
          · rw [if_pos hyx] at hab
            cases hab
          · rw [if_neg hyx] at hab
            by_cases hyz : y.toNat < z.toNat
            · rw [if_pos (by omega)]
            · rw [if_neg hyz] at hbc
              by_cases hzy : z.toNat < y.toNat
              · rw [if_pos hzy] at hbc
                cases hbc
              · rw [if_neg hzy] at hbc
                rw [if_neg (by omega), if_neg (by omega)]
                exact ih t u hab hbc

theorem bGet_bInsert (k n : List Char) (v : IndexRecord) (m : BMap) :
    bGet k (bInsert n v m) = if k = n then some v else bGet k m := by
  induction m with
  | nil =>
    by_cases h : k = n <;> simp [bInsert, bGet, h]
  | cons p t ih =>
    obtain ⟨k', v'⟩ := p
    by_cases h1 : n = k'
    · subst h1
      by_cases h2 : k = n <;> simp [bInsert, bGet, h2]
    · simp only [bInsert, if_neg h1]
      by_cases h3 : lexLt n k' = true
      · rw [if_pos h3]
        by_cases h2 : k = n
        · simp [bGet, h2]
        · simp [bGet, h2]
      · rw [if_neg h3]
        by_cases h4 : k = k'
        · have hkn : ¬ k = n := by
            rw [h4]
            exact fun hh => h1 hh.symm
          rw [if_neg hkn]
          simp [bGet, h4]
        · simp [bGet, h4, ih]

theorem bInsert_mem (n : List Char) (v : IndexRecord) (m : BMap)
    (p : List Char × IndexRecord) (hp : p ∈ bInsert n v m) :
    p = (n, v) ∨ p ∈ m := by
  induction m with
  | nil => simpa [bInsert] using hp
  | cons q t ih =>
    obtain ⟨k', v'⟩ := q
    by_cases h1 : n = k'
    · simp only [bInsert, if_pos h1] at hp
      rcases List.mem_cons.mp hp with h | h
      · exact Or.inl h
      · exact Or.inr (List.mem_cons_of_mem _ h)
    · simp only [bInsert, if_neg h1] at hp
      by_cases h3 : lexLt n k' = true
      · rw [if_pos h3] at hp
        rcases List.mem_cons.mp hp with h | h
        · exact Or.inl h
        · exact Or.inr h
      · rw [if_neg h3] at hp
        rcases List.mem_cons.mp hp with h | h
        · exact Or.inr (h ▸ List.mem_cons_self _ _)
        · rcases ih h with h' | h'
          · exact Or.inl h'
          · exact Or.inr (List.mem_cons_of_mem _ h')

theorem bInsert_sorted (n : List Char) (v : IndexRecord) (m : BMap)
    (hm : keysSorted m) : keysSorted (bInsert n v m) := by
  induction m with
  | nil => simp [bInsert, keysSorted]
  | cons q t ih =>
    obtain ⟨k', v'⟩ := q
    unfold keysSorted at hm
    rw [List.pairwise_cons] at hm
    by_cases h1 : n = k'
    · simp only [bInsert, if_pos h1]
      unfold keysSorted
      rw [List.pairwise_cons]
      exact ⟨fun b hb => h1 ▸ hm.1 b hb, hm.2⟩
    · simp only [bInsert, if_neg h1]
      by_cases h3 : lexLt n k' = true
      · rw [if_pos h3]
        unfold keysSorted
        rw [List.pairwise_cons]
        refine ⟨?_, ?_⟩
        · intro b hb
          rcases List.mem_cons.mp hb with h | h
          · rw [h]
            exact h3
          · exact lexLt_trans n k' b.1 h3 (hm.1 b h)
        · exact List.pairwise_cons.mpr ⟨hm.1, hm.2⟩
      · rw [if_neg h3]
        unfold keysSorted
        rw [List.pairwise_cons]
        refine ⟨?_, ih hm.2⟩
        intro b hb
        rcases bInsert_mem n v t b hb with h | h
        · rw [h]
          rcases lexLt_total n k' with he | hl | hg
          · exact absurd he h1
          · exact absurd hl h3
          · exact hg
        · exact hm.1 b h

theorem keysSorted_nodup (m : BMap) (hm : keysSorted m) :
    (m.map Prod.fst).Nodup := by
  unfold keysSorted at hm
  have h1 : (m.map Prod.fst).Pairwise (fun a b => lexLt a b = true) :=
    List.Pairwise.map Prod.fst (fun a b h => h) hm
  refine h1.imp ?_
  intro a b hab heq
  rw [heq, lexLt_irrefl] at hab
  cases hab

theorem buildRows_isSome (rows : List (List Char)) (acc : BMap)
    (hok : ∀ r ∈ rows, (decodeRow r).isSome) :
    ∃ m, buildRows rows acc = some m := by
  induction rows generalizing acc with
  | nil => exact ⟨acc, rfl⟩
  | cons r0 rs ih =>
    cases hd : decodeRow r0 with
    | none =>
      have := hok r0 (List.mem_cons_self _ _)
      rw [hd] at this
      cases this
    | some p =>
      obtain ⟨m, hm⟩ := ih (bInsert p.1 p.2 acc)
        (fun r hr => hok r (List.mem_cons_of_mem _ hr))
      exact ⟨m, by simp [buildRows, hd, hm]⟩

theorem buildRows_get (rows : List (List Char)) (acc : BMap) (m : BMap)
    (hm : buildRows rows acc = some m) (k : List Char) :
    bGet k m = (lastMatch k rows).or (bGet k acc) := by
  induction rows generalizing acc with
  | nil =>
    simp only [buildRows, Option.some.injEq] at hm
    subst hm
    rfl
  | cons r0 rs ih =>
    simp only [buildRows] at hm
    cases hd : decodeRow r0 with
    | none =>
      rw [hd] at hm
      cases hm
    | some p =>
      rw [hd] at hm
      rw [ih (bInsert p.1 p.2 acc) hm]
      simp only [lastMatch, hd]
      cases hl : lastMatch k rs with
      | some w => rfl
      | none =>
        simp only [Option.or, bGet_bInsert]
        by_cases hk : p.1 = k
        · rw [if_pos hk, if_pos hk.symm]
        · rw [if_neg hk, if_neg (fun hh => hk hh.symm)]

theorem buildRows_sorted (rows : List (List Char)) (acc : BMap) (m : BMap)
    (hacc : keysSorted acc) (hm : buildRows rows acc = some m) :
    keysSorted m := by
  induction rows generalizing acc with
  | nil =>
    simp only [buildRows, Option.some.injEq] at hm
    subst hm
    exact hacc
  | cons r0 rs ih =>
    simp only [buildRows] at hm
    cases hd : decodeRow r0 with
    | none =>
      rw [hd] at hm
      cases hm
    | some p =>
      rw [hd] at hm
      exact ih (bInsert p.1 p.2 acc) (bInsert_sorted p.1 p.2 acc hacc) hm

theorem buildRows_none (rows : List (List Char)) (acc : BMap)
    (row : List Char) (hmem : row ∈ rows) (hbad : decodeRow row = none) :
    buildRows rows acc = none := by
  induction rows generalizing acc with
  | nil => cases hmem
  | cons r0 rs ih =>
    rcases List.mem_cons.mp hmem with h0 | h0
    · subst h0
      simp [buildRows, hbad]
    · cases hd : decodeRow r0 with
      | none => simp [buildRows, hd]
      | some p => simp [buildRows, hd, ih _ h0]

/-- C8: when any row of the index side-file is malformed (wrong column
count or a non-numeric numeric field — exactly the cases which make
`decodeRow` fail), the whole `Index::new` build fails with an error
(`none`): there is no partial index, by the shape of the result. -/
theorem c8_malformed_row_fails_build (src : List Char) (row : List Char)
    (hmem : row ∈ faiRows src) (hbad : decodeRow row = none) :
    Index.new src = none := by
  simp [Index.new, buildRows_none (faiRows src) [] row hmem hbad]

/-- Instantiation of `c8_malformed_row_fails_build` on a four-column row
(the spec's own example of a malformed row). -/
theorem c8_malformed_row_fails_build_witness :
    "id\t12\t9\t60".toList ∈ faiRows "id\t12\t9\t60\n".toList
    ∧ decodeRow "id\t12\t9\t60".toList = none
    ∧ Index.new "id\t12\t9\t60\n".toList = none :=
  ⟨by decide, by decide,
    c8_malformed_row_fails_build "id\t12\t9\t60\n".toList "id\t12\t9\t60".toList
      (by decide) (by decide)⟩

/-- C9: when every row of the side-file decodes, `Index::new` succeeds
even if names repeat; the map sends each name to the entry of the LAST
row carrying it (later rows overwrite earlier ones via
`BTreeMap::insert`); keys in the resulting map are unique, and the
sequence listing is exactly the (name, length) image of that map — so
lookup and the listing reflect only the last row's length and layout. -/
theorem c9_duplicate_names_last_row_wins (src : List Char)
    (hok : ∀ r ∈ faiRows src, (decodeRow r).isSome) :
    ∃ ix, Index.new src = some ix
      ∧ (∀ name, bGet name ix.inner = lastMatch name (faiRows src))
      ∧ (ix.inner.map Prod.fst).Nodup
      ∧ ix.sequences = ix.inner.map (fun p => ⟨p.1, p.2.len⟩) := by
  obtain ⟨m, hm⟩ := buildRows_isSome (faiRows src) [] hok
  refine ⟨⟨m⟩, by simp [Index.new, hm], fun name => ?_, ?_, rfl⟩
  · rw [buildRows_get (faiRows src) [] m hm name]
    cases lastMatch name (faiRows src) <;> rfl
  · exact keysSorted_nodup m (buildRows_sorted (faiRows src) [] m List.Pairwise.nil hm)

/-- Instantiation of `c9_duplicate_names_last_row_wins` on a side-file
whose first and third rows both carry the name `a`: the built index maps
`a` to the third row's entry (length 9), and the listing shows `a`
exactly once, with length 9. -/
theorem c9_duplicate_names_last_row_wins_witness :
    (∀ r ∈ faiRows "a\t1\t2\t3\t4\nb\t5\t6\t7\t8\na\t9\t10\t11\t12\n".toList,
      (decodeRow r).isSome)
    ∧ (∃ ix, Index.new "a\t1\t2\t3\t4\nb\t5\t6\t7\t8\na\t9\t10\t11\t12\n".toList = some ix
      ∧ (∀ name, bGet name ix.inner =
          lastMatch name (faiRows "a\t1\t2\t3\t4\nb\t5\t6\t7\t8\na\t9\t10\t11\t12\n".toList))
      ∧ (ix.inner.map Prod.fst).Nodup
      ∧ ix.sequences = ix.inner.map (fun p => ⟨p.1, p.2.len⟩)) :=
  ⟨by decide,
    c9_duplicate_names_last_row_wins
      "a\t1\t2\t3\t4\nb\t5\t6\t7\t8\na\t9\t10\t11\t12\n".toList (by decide)⟩

theorem readLine_line (l r : List Char) (h : '\n' ∉ l) :
    readLine (l ++ '\n' :: r) = (l ++ ['\n'], r) := by
  induction l with
  | nil => simp [readLine]
  | cons c t ih =>
    have hc : ¬ c = '\n' := fun hh => h (hh ▸ List.mem_cons_self _ _)
    have ht : '\n' ∉ t := fun hh => h (List.mem_cons_of_mem _ hh)
    simp [readLine, hc, ih ht]

theorem trimRight_line (s : List Char)
    (hws : ∀ c, s.getLast? = some c → isWS c = false) :
    trimRight (s ++ ['\n']) = s := by
  unfold trimRight
  rw [List.reverse_append,
    show (['\n'] : List Char).reverse = ['\n'] from rfl,
    List.singleton_append,
    List.dropWhile_cons_of_pos (by rfl : isWS '\n' = true)]
  cases hrev : s.reverse with
  | nil =>
    have : s = [] := by simpa using congrArg List.reverse hrev
    simp [this]
  | cons a t =>
    have hlast : s.getLast? = some a := by
      rw [← List.head?_reverse, hrev]
      rfl
    rw [List.dropWhile_cons_of_neg (by simp [hws a hlast])]
    rw [← hrev, List.reverse_reverse]

theorem takeWhile_all_append (p : Char → Bool) (t rest : List Char)
    (ht : ∀ c ∈ t, p c = true)
    (hr : ∀ c, rest.head? = some c → p c = false) :
    (t ++ rest).takeWhile p = t ∧ (t ++ rest).dropWhile p = rest := by
  induction t with
  | nil =>
    cases rest with
    | nil => exact ⟨rfl, rfl⟩
    | cons c u =>
      have := hr c rfl
      simp [List.takeWhile, List.dropWhile, this]
  | cons a t ih =>
    have ha : p a = true := ht a (List.mem_cons_self _ _)
    have ih' := ih (fun c hc => ht c (List.mem_cons_of_mem _ hc))
    simp [List.takeWhile, List.dropWhile, ha, ih'.1, ih'.2]

theorem splitWS_token (tok rest : List Char) (hne : tok ≠ [])
    (hall : ∀ c ∈ tok, isWS c = false)
    (hr : ∀ c, rest.head? = some c → isWS c = true) :
    splitWS (tok ++ rest) = tok :: splitWS rest := by
  match tok, hne with
  | a :: t, _ =>
    rw [List.cons_append, splitWS_cons]
    have ha : isWS a = false := hall a (List.mem_cons_self _ _)
    rw [if_neg (by simp [ha])]
    have h3 := takeWhile_all_append (fun d => !isWS d) t rest
      (fun c hc => by simp [hall c (List.mem_cons_of_mem _ hc)])
      (fun c hc => by simp [hr c hc])
    rw [h3.1, h3.2]

theorem splitWS_cons_ws (c : Char) (rest : List Char) (h : isWS c = true) :
    splitWS (c :: rest) = splitWS rest := by
  rw [splitWS_cons, if_pos h]

theorem descs_flat_head_ws (descs : List (List Char)) (c : Char)
    (h : ((descs.map (fun d => ' ' :: d)).flatten ++ ['\n']).head? = some c) :
    isWS c = true := by
  cases descs with
  | nil =>
    simp at h
    rw [← h]
    rfl
  | cons d ds =>
    simp at h
    rw [← h]
    rfl

theorem splitWS_descs (descs : List (List Char))
    (h : ∀ d ∈ descs, d ≠ [] ∧ ∀ c ∈ d, isWS c = false) :
    splitWS ((descs.map (fun d => ' ' :: d)).flatten ++ ['\n']) = descs := by
  induction descs with
  | nil =>
    rw [show (([] : List (List Char)).map (fun d => ' ' :: d)).flatten ++ ['\n'] =
      '\n' :: [] from rfl]
    rw [splitWS_cons_ws '\n' [] rfl]
    rfl
  | cons d ds ih =>
    have hd := h d (List.mem_cons_self _ _)
    have hds := fun d' hd' => h d' (List.mem_cons_of_mem _ hd')
    rw [List.map_cons, List.flatten_cons, List.cons_append, List.cons_append,
      splitWS_cons_ws ' ' _ rfl, List.append_assoc,
      splitWS_token d _ hd.1 hd.2 (descs_flat_head_ws ds),
      ih hds]

theorem seqLoop_single_line (s : List Char) (hnl : '\n' ∉ s)
    (hgt : s.head? ≠ some '>')
    (hws : ∀ c, s.getLast? = some c → isWS c = false) :
    seqLoop (s ++ ['\n']) = (s, [], []) := by
  rw [seqLoop_eq]
  rw [show s ++ ['\n'] = s ++ '\n' :: [] from rfl, readLine_line s [] hnl]
  rw [if_neg ?hcond]
  case hcond =>
    rintro (h1 | h2)
    · exact absurd h1 (by simp)
    · cases s with
      | nil => cases h2
      | cons a t =>
        rw [List.cons_append] at h2
        exact hgt (by simpa using h2)
  rw [show seqLoop [] = ([], [], []) from rfl]
  rw [trimRight_line s hws]
  simp

/-- C7 (counterexample): the claim asserts the write-then-parse round
trip for EVERY id, description list and sequence.  It fails already for
a description containing a space: writing id `x`, description list
`["a b"]`, sequence `C` emits `>x a b\nC\n`, and parsing that back
yields the description list `["a", "b"]`, not `["a b"]`. -/
theorem c7_description_with_space_not_roundtripped :
    writeFasta "x".toList ["a b".toList] "C".toList = ">x a b\nC\n".toList
    ∧ Records.next ⟨writeFasta "x".toList ["a b".toList] "C".toList, []⟩ =
      (some (.ok ⟨">x a b\n".toList, "C".toList⟩), ⟨[], []⟩)
    ∧ Record.desc ⟨">x a b\n".toList, "C".toList⟩ =
      some ["a".toList, "b".toList]
    ∧ ["a".toList, "b".toList] ≠ ["a b".toList] := by
  refine ⟨by decide, by decide, by decide, by decide⟩

/-- C7 (amended): the write-then-parse round trip holds for every id,
description list and sequence that FASTA text can represent at all:
the id non-empty and whitespace-free, every description non-empty and
whitespace-free, and the sequence containing no line terminator, not
beginning with the header marker, and not ending in whitespace.
Parsing the written text yields exactly one record whose id,
descriptions and sequence equal the written values (wrapping is not
at issue: the writer emits the sequence unwrapped on a single line). -/
theorem c7_write_then_parse_roundtrip (id seq : List Char)
    (descs : List (List Char))
    (hid_ne : id ≠ []) (hid_ws : ∀ c ∈ id, isWS c = false)
    (hdescs : ∀ d ∈ descs, d ≠ [] ∧ ∀ c ∈ d, isWS c = false)
    (hseq_nl : '\n' ∉ seq) (hseq_gt : seq.head? ≠ some '>')
    (hseq_ws : ∀ c, seq.getLast? = some c → isWS c = false) :
    ∃ r, Records.next ⟨writeFasta id descs seq, []⟩ = (some (.ok r), ⟨[], []⟩)
      ∧ Record.id r = some (some id)
      ∧ Record.desc r = some descs
      ∧ r.seq = seq
      ∧ (Records.next ⟨[], []⟩).1 = none := by
  have hflat_nl : '\n' ∉ (descs.map (fun d => ' ' :: d)).flatten := by
    intro hmem
    rw [List.mem_flatten] at hmem
    obtain ⟨l, hl, hcl⟩ := hmem
    rw [List.mem_map] at hl
    obtain ⟨d, hd, rfl⟩ := hl
    rcases List.mem_cons.mp hcl with h | h
    · cases h
    · have := (hdescs d hd).2 '\n' h
      cases this
  have hhd_nl : '\n' ∉ ('>' :: (id ++ (descs.map (fun d => ' ' :: d)).flatten)) := by
    intro hmem
    rcases List.mem_cons.mp hmem with h | h
    · cases h
    · rcases List.mem_append.mp h with h' | h'
      · have := hid_ws '\n' h'
        cases this
      · exact hflat_nl h'
  have hw : writeFasta id descs seq =
      ('>' :: (id ++ (descs.map (fun d => ' ' :: d)).flatten)) ++
        '\n' :: (seq ++ ['\n']) := by
    simp [writeFasta, List.cons_append, List.append_assoc]
  have hread : readLine (writeFasta id descs seq) =
      (('>' :: (id ++ (descs.map (fun d => ' ' :: d)).flatten)) ++ ['\n'],
        seq ++ ['\n']) := by
    rw [hw]
    exact readLine_line _ _ hhd_nl
  refine ⟨⟨'>' :: (id ++ ((descs.map (fun d => ' ' :: d)).flatten ++ ['\n'])),
    seq⟩, ?_, ?_, ?_, rfl, rfl⟩
  · simp only [Records.next, Reader.read, hread, reduceIte]
    rw [seqLoop_single_line seq hseq_nl hseq_gt hseq_ws]
    simp [Record.is_empty, List.append_assoc]
  · simp only [Record.id, sliceFrom1, List.length_cons, List.drop_succ_cons,
      List.drop_zero]
    rw [if_pos (by omega)]
    show some ((splitWS (id ++
      ((descs.map (fun d => ' ' :: d)).flatten ++ ['\n']))).head?) = some (some id)
    rw [splitWS_token id _ hid_ne hid_ws (descs_flat_head_ws descs)]
    rfl
  · simp only [Record.desc, sliceFrom1, List.length_cons, List.drop_succ_cons,
      List.drop_zero]
    rw [if_pos (by omega)]
    show some ((splitWS (id ++
      ((descs.map (fun d => ' ' :: d)).flatten ++ ['\n']))).drop 1) = some descs
    rw [splitWS_token id _ hid_ne hid_ws (descs_flat_head_ws descs),
      splitWS_descs descs hdescs]
    rfl

/-- Instantiation of `c7_write_then_parse_roundtrip`: id `id`,
descriptions `["desc"]`, sequence `ACCGTAGGCTGA` (the fixture of the
source's writer test). -/
theorem c7_write_then_parse_roundtrip_witness :
    ("id".toList ≠ [] ∧ (∀ c ∈ "id".toList, isWS c = false)
      ∧ (∀ d ∈ ["desc".toList], d ≠ [] ∧ ∀ c ∈ d, isWS c = false)
      ∧ '\n' ∉ "ACCGTAGGCTGA".toList
      ∧ "ACCGTAGGCTGA".toList.head? ≠ some '>'
      ∧ (∀ c, "ACCGTAGGCTGA".toList.getLast? = some c → isWS c = false))
    ∧ (∃ r, Records.next ⟨writeFasta "id".toList ["desc".toList]
          "ACCGTAGGCTGA".toList, []⟩ = (some (.ok r), ⟨[], []⟩)
      ∧ Record.id r = some (some "id".toList)
      ∧ Record.desc r = some ["desc".toList]
      ∧ r.seq = "ACCGTAGGCTGA".toList
      ∧ (Records.next ⟨[], []⟩).1 = none) :=
  ⟨⟨by decide, by decide, by decide, by decide, by decide, by decide⟩,
    c7_write_then_parse_roundtrip "id".toList "ACCGTAGGCTGA".toList
      ["desc".toList] (by decide) (by decide) (by decide) (by decide)
      (by decide) (by decide)⟩

/-- C10: every non-error record the iterator yields has a non-empty
header whose first byte is the header marker, so the `id()` and `desc()`
accessors (which slice the header from byte 1) cannot panic on it;
on the empty end-of-stream sentinel record — which the iterator never
yields — the same accessors do panic (`none`). -/
theorem c10_yielded_records_are_well_formed (st : Reader) (r : Record)
    (st' : Reader) (h : Records.next st = (some (.ok r), st')) :
    r.header ≠ []
    ∧ r.header.head? = some '>'
    ∧ (Record.id r).isSome
    ∧ (Record.desc r).isSome
    ∧ Record.id ⟨[], []⟩ = none
    ∧ Record.desc ⟨[], []⟩ = none := by
  have hmain : r.header ≠ [] ∧ r.header.head? = some '>' := by
    obtain ⟨s, l⟩ := st
    by_cases hline0 : (if l = [] then (readLine s).1 else l) = []
    · exfalso
      simp only [Records.next, Reader.read, hline0, if_true] at h
      simp [Record.is_empty] at h
    · by_cases hhd : (if l = [] then (readLine s).1 else l).head? ≠ some '>'
      · exfalso
        simp only [Records.next, Reader.read, if_neg hline0, if_pos hhd] at h
        simp at h
      · simp only [Records.next, Reader.read, if_neg hline0, if_neg hhd] at h
        rw [if_neg (by simp [Record.is_empty, List.isEmpty_iff, hline0])] at h
        simp only [Prod.mk.injEq, Option.some.injEq, Except.ok.injEq] at h
        rw [← h.1]
        exact ⟨hline0, by push_neg at hhd; exact hhd⟩
  refine ⟨hmain.1, hmain.2, ?_, ?_, by decide, by decide⟩
  · simp only [Record.id, sliceFrom1, Option.isSome_map]
    rw [if_pos (by
      have := List.length_pos.mpr hmain.1
      omega)]
    simp
  · simp only [Record.desc, sliceFrom1, Option.isSome_map]
    rw [if_pos (by
      have := List.length_pos.mpr hmain.1
      omega)]
    simp

/-- Instantiation of `c10_yielded_records_are_well_formed` on the test
fixture. -/
theorem c10_yielded_records_are_well_formed_witness :
    Records.next ⟨testFasta, []⟩ =
      (some (.ok ⟨">id desc\n".toList, "ACCGTAGGCTGA".toList⟩), ⟨[], []⟩)
    ∧ (">id desc\n".toList ≠ []
      ∧ ">id desc\n".toList.head? = some '>'
      ∧ (Record.id ⟨">id desc\n".toList, "ACCGTAGGCTGA".toList⟩).isSome
      ∧ (Record.desc ⟨">id desc\n".toList, "ACCGTAGGCTGA".toList⟩).isSome
      ∧ Record.id ⟨[], []⟩ = none
      ∧ Record.desc ⟨[], []⟩ = none) :=
  ⟨by decide,
    c10_yielded_records_are_well_formed ⟨testFasta, []⟩
      ⟨">id desc\n".toList, "ACCGTAGGCTGA".toList⟩ ⟨[], []⟩ (by decide)⟩

end Fasta
